import Mathlib

/-!
Verification of `common_cents` (`closest_round_division` and its wrappers)
against its specification, over a shallow embedding in exact rational
arithmetic: Python `float` values are modelled by `ℚ`, Python `int(x)`
(truncation toward zero) by `truncQ`, Python's stable lexicographic list
sort by `List.insertionSort` with the corresponding total order, and
Python exceptions (`IndexError`, `AssertionError`, `ZeroDivisionError`)
by an `Except` variant of the algorithm that performs the same checks in
the same order as the source.
-/

/-- Python `int(x)`: truncation toward zero (`⌊x⌋` for nonnegative `x`,
`-⌊-x⌋` for negative `x`). -/
def truncQ (q : ℚ) : ℤ := if 0 ≤ q then ⌊q⌋ else -⌊-q⌋

/-- `_round_to_int_if_close`: snap a value to an integer when it is within
`2 ^ (-40)` of one (the source compares against `int(val)`, `int(val) + 1`
and `int(val) - 1`). -/
def round_to_int_if_close (val : ℚ) : ℚ :=
  if |val - truncQ val| < 1 / 2 ^ 40 then (truncQ val : ℚ)
  else if |val - truncQ val - 1| < 1 / 2 ^ 40 then (truncQ val : ℚ) + 1
  else if |val - truncQ val + 1| < 1 / 2 ^ 40 then (truncQ val : ℚ) - 1
  else val

/-- The mutable state threaded through the row loop of
`closest_round_division`: the `col_errors` list of `[error, col]` pairs
(in its current order, as the source keeps it) and the scalar
`remainder_error` carry. -/
structure DivState where
  colErrors : List (ℚ × ℕ)
  carry : ℚ

/-- Python's `col_errors.sort()`: ascending lexicographic order on
`[error, col]` pairs. -/
def lePosP (a b : ℚ × ℕ) : Prop := a.1 < b.1 ∨ (a.1 = b.1 ∧ a.2 ≤ b.2)

/-- Python's `col_errors.sort(key=lambda err_col: (err_col[0], -err_col[1]))`:
ascending by error, descending by column index on ties. -/
def leNegP (a b : ℚ × ℕ) : Prop := a.1 < b.1 ∨ (a.1 = b.1 ∧ b.2 ≤ a.2)

instance : DecidableRel lePosP := fun a b => by unfold lePosP; infer_instance

instance : DecidableRel leNegP := fun a b => by unfold leNegP; infer_instance

/-- `row[col] += d` (Python list index assignment, in range by invariant). -/
def bump (d : ℤ) (row : List ℤ) (c : ℕ) : List ℤ := row.set c (row.getD c 0 + d)

/-- The remainder-distribution step: for a positive remainder, sort the
ledger ascending and give one unit to each of the `remainder` largest
entries (`col_errors[-remainder:]`); for a negative remainder, sort with
the tie-flipped key and take one unit from each of the `-remainder`
smallest entries (`col_errors[:-remainder]`).  Slices clamp exactly as in
Python.  Returns the updated row and the updated (sorted-in-place) ledger. -/
def distribute (remainder : ℤ) (row : List ℤ) (colErrors : List (ℚ × ℕ)) :
    List ℤ × List (ℚ × ℕ) :=
  if 0 < remainder then
    let sorted := List.insertionSort lePosP colErrors
    let k := sorted.length - remainder.toNat
    (((sorted.drop k).map Prod.snd).foldl (bump 1) row,
      sorted.take k ++ (sorted.drop k).map (fun p => (p.1 - 1, p.2)))
  else if remainder < 0 then
    let sorted := List.insertionSort leNegP colErrors
    let k := (-remainder).toNat
    (((sorted.take k).map Prod.snd).foldl (bump (-1)) row,
      (sorted.take k).map (fun p => (p.1 + 1, p.2)) ++ sorted.drop k)
  else (row, colErrors)

/-- One iteration of the `for number in numbers` loop: truncate each
column's exact contribution, accumulate the truncation errors into the
ledger, compute the row remainder against `int(number * scale_factor)`,
update and possibly consume the carry, and distribute the remainder. -/
def stepRow (scale : ℚ) (fractions : List ℚ) (st : DivState) (n : ℤ) :
    List ℤ × DivState :=
  let row := fractions.map fun f => truncQ (f * (n : ℚ))
  let colErrors := st.colErrors.map fun p =>
    (p.1 + (fractions.getD p.2 0 * (n : ℚ) - truncQ (fractions.getD p.2 0 * (n : ℚ))), p.2)
  let exactSum := (n : ℚ) * scale
  let carry0 := st.carry + (exactSum - truncQ exactSum)
  let rc : ℤ × ℚ :=
    if 1 ≤ carry0 then (truncQ exactSum - row.sum + 1, carry0 - 1)
    else if carry0 ≤ -1 then (truncQ exactSum - row.sum - 1, carry0 + 1)
    else (truncQ exactSum - row.sum, carry0)
  let rd := distribute rc.1 row colErrors
  (rd.1, ⟨rd.2, rc.2⟩)

/-- The row loop, returning the rows produced and the final state. -/
def runRows (scale : ℚ) (fractions : List ℚ) :
    DivState → List ℤ → List (List ℤ) × DivState
  | st, [] => ([], st)
  | st, n :: ns =>
    let rs := stepRow scale fractions st n
    let rest := runRows scale fractions rs.2 ns
    (rs.1 :: rest.1, rest.2)

/-- Initial state: `col_errors = [[0, col] for col in range(len(fractions))]`,
`remainder_error = 0`. -/
def initState (fractions : List ℚ) : DivState :=
  ⟨(List.range fractions.length).map fun c => ((0 : ℚ), c), 0⟩

/-- `closest_round_division` together with its final internal state. -/
def runDiv (numbers : List ℤ) (fractions : List ℚ) :
    List (List ℤ) × DivState :=
  runRows (round_to_int_if_close fractions.sum) fractions (initState fractions) numbers

/-- `closest_round_division(numbers, fractions)` (the returned matrix). -/
def closest_round_division (numbers : List ℤ) (fractions : List ℚ) :
    List (List ℤ) :=
  (runDiv numbers fractions).1

/-- Python exception classes raised by this code: `IndexError` (empty-list
indexing), `AssertionError` (failed `assert`), `ZeroDivisionError`. -/
inductive PyError where
  | indexError
  | assertionError
  | zeroDivisionError
  deriving DecidableEq

/-- The two per-row `assert` statements, evaluated in source order:
`assert col_errors[0][0] > -1 and col_errors[-1][0] < 1` (indexing an empty
ledger raises `IndexError`) and
`assert -1 < sum(row) - (number * scale_factor) < 1`. -/
def checkRow (st : DivState) (row : List ℤ) (n : ℤ) (scale : ℚ) :
    Option PyError :=
  match st.colErrors with
  | [] => some PyError.indexError
  | p :: rest =>
    if -1 < p.1 ∧ (((p :: rest).getLast?.getD p).1 < 1) then
      if -1 < (row.sum : ℚ) - n * scale ∧ (row.sum : ℚ) - n * scale < 1 then
        none
      else some PyError.assertionError
    else some PyError.assertionError

/-- The row loop with the source's `assert` checks performed after each row. -/
def runRowsChecked (scale : ℚ) (fractions : List ℚ) :
    DivState → List ℤ → Except PyError (List (List ℤ) × DivState)
  | st, [] => Except.ok ([], st)
  | st, n :: ns =>
    let rs := stepRow scale fractions st n
    match checkRow rs.2 rs.1 n scale with
    | some e => Except.error e
    | none =>
      match runRowsChecked scale fractions rs.2 ns with
      | Except.error e => Except.error e
      | Except.ok rest => Except.ok (rs.1 :: rest.1, rest.2)

/-- `closest_round_division` as actually executed by Python (assertions
enabled): it either returns the matrix or raises the modelled exception,
including the final `assert -1 < remainder_error < 1`. -/
def closest_round_division_checked (numbers : List ℤ) (fractions : List ℚ) :
    Except PyError (List (List ℤ)) :=
  match runRowsChecked (round_to_int_if_close fractions.sum) fractions
      (initState fractions) numbers with
  | Except.error e => Except.error e
  | Except.ok ms =>
    if -1 < ms.2.carry ∧ ms.2.carry < 1 then Except.ok ms.1
    else Except.error PyError.assertionError

/-- `split(amounts, shares)` for a list of amounts: normalizes the shares
and delegates.  The comprehension `[share / total for share in shares]`
raises `ZeroDivisionError` on its first element exactly when `shares` is
non-empty and `total == 0`; for empty `shares` no division is executed. -/
def split_list (amounts : List ℤ) (shares : List ℚ) :
    Except PyError (List (List ℤ)) :=
  if shares ≠ [] ∧ shares.sum = 0 then Except.error PyError.zeroDivisionError
  else closest_round_division_checked amounts (shares.map fun s => s / shares.sum)

/-- `refund(refunds, charge)`: normalizes the charge allocation vector and
delegates; same `ZeroDivisionError` behaviour as `split`. -/
def refund (refunds : List ℤ) (charge : List ℤ) :
    Except PyError (List (List ℤ)) :=
  if charge ≠ [] ∧ charge.sum = 0 then Except.error PyError.zeroDivisionError
  else closest_round_division_checked refunds
    (charge.map fun a => (a : ℚ) / (charge.sum : ℚ))

/-- Total of column `j` of a result matrix (`col_sum`'s entry `j`). -/
def colTotal (m : List (List ℤ)) (j : ℕ) : ℤ :=
  (m.map fun r => r.getD j 0).sum

/-- Aggregate squared deviation of the per-column totals from their exact
proportional targets `fraction[j] * sum(amounts)` (the quantity whose
square-root-mean the test's `_exact_division_error` measures, up to a
positive factor). -/
def aggSqDev (fractions : List ℚ) (numbers : List ℤ) (m : List (List ℤ)) : ℚ :=
  ∑ j ∈ Finset.range fractions.length,
    ((colTotal m j : ℚ) - fractions.getD j 0 * (numbers.sum : ℚ)) ^ 2

/-- Move one unit from column `a` to column `b` within row `i` (the nudge
of the test's `_check_division`). -/
def nudge (m : List (List ℤ)) (i a b : ℕ) : List (List ℤ) :=
  let row := m.getD i []
  m.set i ((row.set a (row.getD a 0 - 1)).set b (row.getD b 0 + 1))

/-- Accumulated error of column `j` after the first `k` rows: the sum over
processed rows of `fraction[j] * amount[i]` minus the integer emitted at
`result[i][j]`. -/
def colAccErr (numbers : List ℤ) (fractions : List ℚ) (k j : ℕ) : ℚ :=
  ∑ i ∈ Finset.range k,
    (fractions.getD j 0 * ((numbers.getD i 0 : ℤ) : ℚ)
      - (((closest_round_division numbers fractions).getD i []).getD j 0 : ℚ))

/-- The carry (`remainder_error`) after processing the first `k` rows. -/
def carryAfter (numbers : List ℤ) (fractions : List ℚ) (k : ℕ) : ℚ :=
  (runDiv (numbers.take k) fractions).2.carry

/-- The exact truncation error of column `c` for amount `n`:
`fraction[c] * n - int(fraction[c] * n)`. -/
def eVal (fractions : List ℚ) (n : ℤ) (c : ℕ) : ℚ :=
  fractions.getD c 0 * (n : ℚ) - truncQ (fractions.getD c 0 * (n : ℚ))

/-- The ledger pairs after the truncation phase of the first row (each
initial `0` entry incremented by that column's truncation error). -/
def colPairs (fractions : List ℚ) (n : ℤ) : List (ℚ × ℕ) :=
  (List.range fractions.length).map fun c => (eVal fractions n c, c)

/-- The integer remainder of a row before carry adjustment:
`int(number * scale_factor) - sum(row)`. -/
def rowRemainder (fractions : List ℚ) (scale : ℚ) (n : ℤ) : ℤ :=
  truncQ ((n : ℚ) * scale) - (fractions.map fun f => truncQ (f * (n : ℚ))).sum

theorem truncQ_zero : truncQ 0 = 0 := by simp [truncQ]

theorem truncQ_intCast (z : ℤ) : truncQ (z : ℚ) = z := by
  unfold truncQ
  split
  · simp
  · rw [Int.floor_neg, Int.ceil_intCast, neg_neg]

theorem floor_le_truncQ (q : ℚ) : ⌊q⌋ ≤ truncQ q := by
  unfold truncQ
  split
  · exact le_refl _
  · rw [Int.floor_neg, neg_neg]
    exact Int.floor_le_ceil q

theorem truncQ_le_ceil (q : ℚ) : truncQ q ≤ ⌈q⌉ := by
  unfold truncQ
  split
  · exact Int.floor_le_ceil q
  · rw [Int.floor_neg, neg_neg]

theorem sub_truncQ_lt_one (q : ℚ) : q - truncQ q < 1 := by
  have h := floor_le_truncQ q
  have h2 := Int.lt_floor_add_one q
  have h3 : (⌊q⌋ : ℚ) ≤ (truncQ q : ℚ) := by exact_mod_cast h
  linarith

theorem neg_one_lt_sub_truncQ (q : ℚ) : -1 < q - truncQ q := by
  have h := truncQ_le_ceil q
  have h2 := Int.ceil_lt_add_one q
  have h3 : (truncQ q : ℚ) ≤ (⌈q⌉ : ℚ) := by exact_mod_cast h
  linarith

theorem sub_truncQ_nonneg (q : ℚ) (h : 0 ≤ q) : 0 ≤ q - truncQ q := by
  unfold truncQ
  rw [if_pos h]
  have := Int.floor_le q
  linarith

theorem sub_truncQ_nonpos (q : ℚ) (h : q ≤ 0) : q - truncQ q ≤ 0 := by
  unfold truncQ
  by_cases h0 : 0 ≤ q
  · have hq : q = 0 := le_antisymm h h0
    simp [hq]
  · rw [if_neg h0]
    have := Int.floor_le (-q)
    push_cast
    linarith

theorem truncQ_neg (q : ℚ) : truncQ (-q) = -truncQ q := by
  rcases lt_trichotomy q 0 with h | h | h
  · have h1 : ¬ (0 ≤ q) := not_le.mpr h
    have h2 : 0 ≤ -q := by linarith
    simp [truncQ, h1, h2]
  · simp [h, truncQ_zero]
  · have h1 : 0 ≤ q := le_of_lt h
    have h2 : ¬ (0 ≤ -q) := by
      simp only [not_le]
      linarith
    simp [truncQ, h1, h2]

theorem sum_map_neg {α : Type} [AddCommGroup α] (l : List α) :
    (l.map fun x => -x).sum = -l.sum := by
  induction l with
  | nil => simp
  | cons x l ih => simp [ih]; abel

theorem sum_map_zero (l : List ℚ) : (l.map fun _ => (0 : ℤ)).sum = 0 := by
  induction l with
  | nil => simp
  | cons x l ih => simp [ih]

theorem stepRow_carry_bound (scale : ℚ) (fractions : List ℚ) (st : DivState)
    (n : ℤ) (h1 : -1 < st.carry) (h2 : st.carry < 1) :
    -1 < (stepRow scale fractions st n).2.carry ∧
      (stepRow scale fractions st n).2.carry < 1 := by
  have hd1 := neg_one_lt_sub_truncQ ((n : ℚ) * scale)
  have hd2 := sub_truncQ_lt_one ((n : ℚ) * scale)
  simp only [stepRow]
  split_ifs with hc1 hc2 <;> dsimp only <;>
    exact ⟨by linarith, by linarith⟩

theorem runRows_carry_bound (scale : ℚ) (fractions : List ℚ) (ns : List ℤ)
    (st : DivState) (h1 : -1 < st.carry) (h2 : st.carry < 1) :
    -1 < (runRows scale fractions st ns).2.carry ∧
      (runRows scale fractions st ns).2.carry < 1 := by
  induction ns generalizing st with
  | nil => exact ⟨h1, h2⟩
  | cons n ns ih =>
    simp only [runRows]
    have h := stepRow_carry_bound scale fractions st n h1 h2
    exact ih _ h.1 h.2

/-- C5.  Carry invariant: the cross-row carry (`remainder_error`) of
`closest_round_division` starts at `0`, and after any number of fully
processed rows (the carry is only modified in each row's
carry-consumption step, so this is its value after that step, including
after the final row) its magnitude is strictly less than `1`. -/
theorem C5_carry_invariant (numbers : List ℤ) (fractions : List ℚ)
    (hfr : fractions ≠ []) :
    (initState fractions).carry = 0 ∧
      ∀ k : ℕ, -1 < carryAfter numbers fractions k ∧
        carryAfter numbers fractions k < 1 := by
  constructor
  · rfl
  · intro k
    exact runRows_carry_bound _ fractions (numbers.take k) (initState fractions)
      (by norm_num [initState]) (by norm_num [initState])

theorem C5_carry_invariant_witness :
    ([(1 : ℚ)/3] ≠ []) ∧
      (-1 < carryAfter [1, 2] [(1 : ℚ)/3] 2 ∧ carryAfter [1, 2] [(1 : ℚ)/3] 2 < 1) :=
  ⟨by simp, (C5_carry_invariant [1, 2] [(1 : ℚ)/3] (by simp)).2 2⟩

theorem runRows_append (scale : ℚ) (fractions : List ℚ) (xs ys : List ℤ)
    (st : DivState) :
    runRows scale fractions st (xs ++ ys)
      = ((runRows scale fractions st xs).1
          ++ (runRows scale fractions (runRows scale fractions st xs).2 ys).1,
         (runRows scale fractions (runRows scale fractions st xs).2 ys).2) := by
  induction xs generalizing st with
  | nil => simp [runRows]
  | cons x xs ih =>
    simp only [List.cons_append, runRows]
    rw [show xs.append ys = xs ++ ys from rfl, ih]

theorem runRows_length (scale : ℚ) (fractions : List ℚ) (ns : List ℤ)
    (st : DivState) :
    (runRows scale fractions st ns).1.length = ns.length := by
  induction ns generalizing st with
  | nil => rfl
  | cons n ns ih => simp [runRows, ih]

theorem stepRow_zero (scale : ℚ) (fractions : List ℚ) (st : DivState)
    (h1 : -1 < st.carry) (h2 : st.carry < 1) :
    stepRow scale fractions st 0 = (fractions.map fun _ => (0 : ℤ), st) := by
  simp only [stepRow, Int.cast_zero, mul_zero, zero_mul, truncQ_zero, sub_self,
    add_zero, Prod.mk.eta]
  rw [if_neg (by linarith : ¬ (1 : ℚ) ≤ st.carry),
    if_neg (by linarith : ¬ st.carry ≤ -1)]
  simp [distribute, sum_map_zero, Prod.mk.eta]

/-- C10.  A zero amount is an identity row: inserting `0` into the amount
list inserts an all-zero row at that position and leaves every other row
of the result unchanged, and processing the zero row leaves the ledger
and the carry state exactly as they were. -/
theorem C10_zero_amount_identity (fractions : List ℚ) (xs ys : List ℤ)
    (hfr : fractions ≠ []) :
    closest_round_division (xs ++ 0 :: ys) fractions
      = (closest_round_division (xs ++ ys) fractions).take xs.length
        ++ (fractions.map fun _ => (0 : ℤ))
          :: (closest_round_division (xs ++ ys) fractions).drop xs.length
    ∧ (runDiv (xs ++ [0]) fractions).2 = (runDiv xs fractions).2 := by
  set scale := round_to_int_if_close fractions.sum with hscale
  have h0 : (initState fractions).carry = 0 := rfl
  have hmid := runRows_carry_bound scale fractions xs (initState fractions)
    (by rw [h0]; norm_num) (by rw [h0]; norm_num)
  set stMid := (runRows scale fractions (initState fractions) xs).2 with hstMid
  have hz := stepRow_zero scale fractions stMid hmid.1 hmid.2
  constructor
  · show (runRows scale fractions (initState fractions) (xs ++ 0 :: ys)).1 = _
    rw [runRows_append]
    have hrows : runRows scale fractions stMid (0 :: ys)
        = ((fractions.map fun _ => (0 : ℤ))
            :: (runRows scale fractions stMid ys).1,
           (runRows scale fractions stMid ys).2) := by
      simp only [runRows, hz]
    rw [hrows]
    show _ = ((runRows scale fractions (initState fractions) (xs ++ ys)).1).take xs.length
        ++ (fractions.map fun _ => (0 : ℤ))
          :: ((runRows scale fractions (initState fractions) (xs ++ ys)).1).drop xs.length
    rw [runRows_append]
    have hlen : (runRows scale fractions (initState fractions) xs).1.length = xs.length :=
      runRows_length _ _ _ _
    rw [← hlen]
    rw [List.take_left, List.drop_left]
  · show (runRows scale fractions (initState fractions) (xs ++ [0])).2 = stMid
    rw [runRows_append]
    simp only [runRows, hz]

theorem C10_zero_amount_identity_witness :
    ([(1 : ℚ)/2, 1/2] ≠ []) ∧
      (closest_round_division ([1] ++ 0 :: [3]) [(1 : ℚ)/2, 1/2]
        = (closest_round_division ([1] ++ [3]) [(1 : ℚ)/2, 1/2]).take [1].length
          ++ ([(1 : ℚ)/2, 1/2].map fun _ => (0 : ℤ))
            :: (closest_round_division ([1] ++ [3]) [(1 : ℚ)/2, 1/2]).drop [1].length
      ∧ (runDiv ([1] ++ [0]) [(1 : ℚ)/2, 1/2]).2 = (runDiv [1] [(1 : ℚ)/2, 1/2]).2) :=
  ⟨by simp, C10_zero_amount_identity [(1 : ℚ)/2, 1/2] [1] [3] (by simp)⟩

instance : IsTrans (ℚ × ℕ) lePosP := by
  constructor
  intro a b c hab hbc
  rcases hab with h | ⟨h, h2⟩ <;> rcases hbc with h' | ⟨h', h2'⟩
  · exact Or.inl (lt_trans h h')
  · exact Or.inl (h' ▸ h)
  · exact Or.inl (h ▸ h')
  · exact Or.inr ⟨h.trans h', le_trans h2 h2'⟩

instance : IsTotal (ℚ × ℕ) lePosP := by
  constructor
  intro a b
  rcases lt_trichotomy a.1 b.1 with h | h | h
  · exact Or.inl (Or.inl h)
  · rcases le_total a.2 b.2 with h2 | h2
    · exact Or.inl (Or.inr ⟨h, h2⟩)
    · exact Or.inr (Or.inr ⟨h.symm, h2⟩)
  · exact Or.inr (Or.inl h)

instance : IsAntisymm (ℚ × ℕ) lePosP := by
  constructor
  intro a b hab hba
  rcases hab with h | ⟨h, h2⟩ <;> rcases hba with h' | ⟨h', h2'⟩
  · exact absurd (lt_trans h h') (lt_irrefl _)
  · exact absurd (h' ▸ h) (lt_irrefl _)
  · exact absurd (h ▸ h') (lt_irrefl _)
  · exact Prod.ext h (le_antisymm h2 h2')

instance : IsTrans (ℚ × ℕ) leNegP := by
  constructor
  intro a b c hab hbc
  rcases hab with h | ⟨h, h2⟩ <;> rcases hbc with h' | ⟨h', h2'⟩
  · exact Or.inl (lt_trans h h')
  · exact Or.inl (h' ▸ h)
  · exact Or.inl (h ▸ h')
  · exact Or.inr ⟨h.trans h', le_trans h2' h2⟩

instance : IsTotal (ℚ × ℕ) leNegP := by
  constructor
  intro a b
  rcases lt_trichotomy a.1 b.1 with h | h | h
  · exact Or.inl (Or.inl h)
  · rcases le_total b.2 a.2 with h2 | h2
    · exact Or.inl (Or.inr ⟨h, h2⟩)
    · exact Or.inr (Or.inr ⟨h.symm, h2⟩)
  · exact Or.inr (Or.inl h)

instance : IsAntisymm (ℚ × ℕ) leNegP := by
  constructor
  intro a b hab hba
  rcases hab with h | ⟨h, h2⟩ <;> rcases hba with h' | ⟨h', h2'⟩
  · exact absurd (lt_trans h h') (lt_irrefl _)
  · exact absurd (h' ▸ h) (lt_irrefl _)
  · exact absurd (h ▸ h') (lt_irrefl _)
  · exact Prod.ext h (le_antisymm h2' h2)

theorem lePosP_fst {a b : ℚ × ℕ} (h : lePosP a b) : a.1 ≤ b.1 := by
  rcases h with h | ⟨h, _⟩
  · exact le_of_lt h
  · exact le_of_eq h

theorem leNegP_fst {a b : ℚ × ℕ} (h : leNegP a b) : a.1 ≤ b.1 := by
  rcases h with h | ⟨h, _⟩
  · exact le_of_lt h
  · exact le_of_eq h

theorem insertionSort_negFst_of_lePos (L : List (ℚ × ℕ)) :
    List.insertionSort leNegP (L.map fun p => (-p.1, p.2))
      = ((List.insertionSort lePosP L).reverse.map fun p => (-p.1, p.2)) := by
  apply List.eq_of_perm_of_sorted (r := leNegP)
  · refine (List.perm_insertionSort _ _).trans ?_
    exact (((List.reverse_perm _).map _).trans
      ((List.perm_insertionSort lePosP L).map _)).symm
  · exact List.sorted_insertionSort _ _
  · rw [List.Sorted, List.pairwise_map, List.pairwise_reverse]
    apply List.Pairwise.imp _ (List.sorted_insertionSort lePosP L)
    intro a b hab
    rcases hab with h | ⟨h, h2⟩
    · exact Or.inl (by simpa using h)
    · exact Or.inr ⟨by rw [h], h2⟩

theorem insertionSort_negFst_of_leNeg (L : List (ℚ × ℕ)) :
    List.insertionSort lePosP (L.map fun p => (-p.1, p.2))
      = ((List.insertionSort leNegP L).reverse.map fun p => (-p.1, p.2)) := by
  apply List.eq_of_perm_of_sorted (r := lePosP)
  · refine (List.perm_insertionSort _ _).trans ?_
    exact (((List.reverse_perm _).map _).trans
      ((List.perm_insertionSort leNegP L).map _)).symm
  · exact List.sorted_insertionSort _ _
  · rw [List.Sorted, List.pairwise_map, List.pairwise_reverse]
    apply List.Pairwise.imp _ (List.sorted_insertionSort leNegP L)
    intro a b hab
    rcases hab with h | ⟨h, h2⟩
    · exact Or.inl (by simpa using h)
    · exact Or.inr ⟨by rw [h], h2⟩

theorem getD_set_ne (l : List ℤ) (i j : ℕ) (v : ℤ) (h : i ≠ j) :
    (l.set i v).getD j 0 = l.getD j 0 := by
  rw [List.getD_eq_getElem?_getD, List.getD_eq_getElem?_getD,
    List.getElem?_set_ne h]

theorem bump_comm (d : ℤ) (row : List ℤ) (c c' : ℕ) (h : c ≠ c') :
    bump d (bump d row c) c' = bump d (bump d row c') c := by
  unfold bump
  rw [getD_set_ne _ _ _ _ h, getD_set_ne _ _ _ _ (Ne.symm h),
    List.set_comm _ _ _ h]

theorem foldl_bump_reverse (d : ℤ) (cols : List ℕ) (row : List ℤ) :
    cols.reverse.foldl (bump d) row = cols.foldl (bump d) row := by
  apply List.Perm.foldl_eq' (List.reverse_perm cols)
  intro x hx y hy z
  by_cases h : x = y
  · rw [h]
  · exact bump_comm d z x y h

theorem bump_neg (d : ℤ) (row : List ℤ) (c : ℕ) :
    bump (-d) (row.map fun x => -x) c = (bump d row c).map fun x => -x := by
  unfold bump
  rw [List.map_set]
  congr 1
  rw [List.getD_eq_getElem?_getD, List.getD_eq_getElem?_getD, List.getElem?_map]
  cases h : row[c]? with
  | none => simp
  | some v => simp [add_comm]

theorem foldl_bump_neg (d : ℤ) (cols : List ℕ) (row : List ℤ) :
    cols.foldl (bump (-d)) (row.map fun x => -x)
      = (cols.foldl (bump d) row).map fun x => -x := by
  induction cols generalizing row with
  | nil => rfl
  | cons c cols ih =>
    simp only [List.foldl_cons]
    rw [bump_neg, ih]

theorem take_min {α : Type} (l : List α) (m : ℕ) :
    l.take (min m l.length) = l.take m := by
  rcases le_total m l.length with h | h
  · rw [min_eq_left h]
  · rw [min_eq_right h, List.take_length, List.take_of_length_le h]

theorem distribute_neg (r : ℤ) (row : List ℤ) (L : List (ℚ × ℕ)) :
    (distribute (-r) (row.map fun x => -x) (L.map fun p => (-p.1, p.2))).1
      = ((distribute r row L).1).map fun x => -x := by
  rcases lt_trichotomy r 0 with hr | hr | hr
  · -- r < 0 : positive branch on the negated input, negative branch on the original
    have hnr : 0 < -r := by linarith
    unfold distribute
    rw [if_pos hnr, if_neg (by linarith), if_pos hr]
    rw [insertionSort_negFst_of_leNeg]
    set S := List.insertionSort leNegP L with hS
    have hlenS : S.length = L.length := List.length_insertionSort _ _
    have hlen2 : (S.reverse.map fun p => ((-p.1 : ℚ), p.2)).length = S.length := by
      simp
    dsimp only
    rw [hlen2, ← List.map_drop, List.drop_reverse]
    have hmin : S.length - (S.length - (-r).toNat) = min ((-r).toNat) S.length := by
      omega
    rw [hmin, take_min]
    rw [List.map_map]
    rw [show ((Prod.snd ∘ fun p : ℚ × ℕ => ((-p.1 : ℚ), p.2))) = Prod.snd from rfl]
    rw [List.map_reverse, foldl_bump_reverse]
    rw [show (1 : ℤ) = -(-1) from rfl, foldl_bump_neg]
    norm_num
  · simp [hr, distribute]
  · -- r > 0 : negative branch on the negated input, positive branch on the original
    have hnr : -r < 0 := by linarith
    unfold distribute
    rw [if_neg (by linarith), if_pos hnr, if_pos hr]
    rw [insertionSort_negFst_of_lePos]
    set S := List.insertionSort lePosP L with hS
    dsimp only
    rw [neg_neg, ← List.map_take, List.take_reverse]
    rw [List.map_map]
    rw [show ((Prod.snd ∘ fun p : ℚ × ℕ => ((-p.1 : ℚ), p.2))) = Prod.snd from rfl]
    rw [List.map_reverse, foldl_bump_reverse]
    rw [foldl_bump_neg]

theorem stepRow_init_neg (scale : ℚ) (fr : List ℚ) (n : ℤ) :
    (stepRow scale fr (initState fr) (-n)).1
      = ((stepRow scale fr (initState fr) n).1).map fun x => -x := by
  have hB1 := neg_one_lt_sub_truncQ ((n : ℚ) * scale)
  have hB2 := sub_truncQ_lt_one ((n : ℚ) * scale)
  simp only [stepRow, initState]
  simp only [Int.cast_neg, mul_neg, neg_mul, truncQ_neg]
  have hrow : (fr.map fun f => -truncQ (f * ((n : ℤ) : ℚ)))
      = (fr.map fun f => truncQ (f * ((n : ℤ) : ℚ))).map (fun x => -x) := by
    rw [List.map_map]
    rfl
  have hsum : (fr.map fun f => -truncQ (f * ((n : ℤ) : ℚ))).sum
      = -(fr.map fun f => truncQ (f * ((n : ℤ) : ℚ))).sum := by
    rw [hrow, sum_map_neg]
  rw [hsum]
  split_ifs with h1 h2 h3 h4 h5 h6 h7 h8 <;> try (exfalso; linarith)
  · have hcol : ((List.range fr.length).map fun c => ((0 : ℚ), c)).map
          (fun p => (p.1 + (-(fr.getD p.2 0 * ((n : ℤ) : ℚ))
            - -((truncQ (fr.getD p.2 0 * ((n : ℤ) : ℚ)) : ℤ) : ℚ)), p.2))
        = (((List.range fr.length).map fun c => ((0 : ℚ), c)).map
          (fun p => (p.1 + (fr.getD p.2 0 * ((n : ℤ) : ℚ)
            - ((truncQ (fr.getD p.2 0 * ((n : ℤ) : ℚ)) : ℤ) : ℚ)), p.2))).map
          (fun p => ((-p.1 : ℚ), p.2)) := by
      rw [List.map_map, List.map_map, List.map_map]
      apply List.map_congr_left
      intro c _
      simp only [Function.comp]
      exact Prod.ext (by ring) rfl
    rw [hrow, hcol]
    rw [show (-(truncQ (((n : ℤ) : ℚ) * scale))
          - -(fr.map fun f => truncQ (f * ((n : ℤ) : ℚ))).sum)
        = -((truncQ (((n : ℤ) : ℚ) * scale))
          - (fr.map fun f => truncQ (f * ((n : ℤ) : ℚ))).sum) by ring]
    rw [distribute_neg]

/-- C4.  Sign symmetry: for every integer `n` and non-empty fraction list,
`closest_round_division [-n] fractions` is the element-wise negation of
`closest_round_division [n] fractions`. -/
theorem C4_sign_symmetry (n : ℤ) (fractions : List ℚ) (hfr : fractions ≠ []) :
    closest_round_division [-n] fractions
      = (closest_round_division [n] fractions).map fun r => r.map fun x => -x := by
  simp only [closest_round_division, runDiv, runRows, List.map_cons, List.map_nil]
  rw [stepRow_init_neg]

theorem C4_sign_symmetry_witness :
    ([(1 : ℚ)/3, 1/3, 1/3] ≠ []) ∧
      closest_round_division [-2] [(1 : ℚ)/3, 1/3, 1/3]
        = (closest_round_division [2] [(1 : ℚ)/3, 1/3, 1/3]).map fun r =>
            r.map fun x => -x :=
  ⟨by simp, C4_sign_symmetry 2 [(1 : ℚ)/3, 1/3, 1/3] (by simp)⟩

/-- C1.  Row conservation fails on the code: for `amounts = [2^45]` and
`fractions = [2^(-41)]` the snap heuristic forces the scale factor to `0`
while the only row sums to `15`, so `|sum(result[0]) - amount[0] * scale|`
is `15`, not `< 1` (the source's own row assert fires on this input). -/
theorem C1_row_conservation_fails :
    closest_round_division [2 ^ 45] [1 / 2 ^ 41] = [[15]] ∧
      round_to_int_if_close (List.sum [(1 : ℚ) / 2 ^ 41]) = 0 ∧
      ¬ |((((closest_round_division [2 ^ 45] [1 / 2 ^ 41]).getD 0 []).sum : ℤ) : ℚ)
          - ((2 ^ 45 : ℤ) : ℚ)
            * round_to_int_if_close (List.sum [(1 : ℚ) / 2 ^ 41])| < 1 := by
  refine ⟨?_, ?_, ?_⟩ <;>
    norm_num [closest_round_division, runDiv, runRows, stepRow, initState,
      round_to_int_if_close, distribute, truncQ, bump, abs_lt,
      List.getD_cons_zero, List.getD_cons_succ, List.set_cons_zero, List.set_cons_succ,
      Int.toNat_ofNat, List.take_of_length_le, List.drop_of_length_le,
      List.getElem_cons_zero, List.getElem_cons_succ,
      List.insertionSort, List.orderedInsert, lePosP, leNegP, List.range_succ]

/-- C2.  The ledger / column-conservation invariant fails on the code: with
`amounts = [1, 1]` and `fractions = [9/10, -9/10]` every row remainder is
`0`, nothing is ever distributed, and after the two rows column 0 has
accumulated error `9/5`, whose magnitude is not `< 1` (the source's assert
misses it because it checks only the first and last entry of an unsorted
ledger list). -/
theorem C2_ledger_invariant_fails :
    closest_round_division [1, 1] [9/10, -9/10] = [[0, 0], [0, 0]] ∧
      colAccErr [1, 1] [9/10, -9/10] 2 0 = 9/5 ∧
      ¬ |colAccErr [1, 1] [9/10, -9/10] 2 0| < 1 := by
  have h : closest_round_division [1, 1] [9/10, -9/10] = [[0, 0], [0, 0]] := by
    norm_num [closest_round_division, runDiv, runRows, stepRow, initState,
      round_to_int_if_close, distribute, truncQ, bump, abs_lt,
      List.getD_cons_zero, List.getD_cons_succ, List.set_cons_zero, List.set_cons_succ,
      Int.toNat_ofNat, List.take_of_length_le, List.drop_of_length_le,
      List.getElem_cons_zero, List.getElem_cons_succ,
      List.insertionSort, List.orderedInsert, lePosP, leNegP, List.range_succ]
  have h2 : colAccErr [1, 1] [9/10, -9/10] 2 0 = 9/5 := by
    rw [colAccErr, Finset.sum_range_succ, Finset.sum_range_succ, Finset.sum_range_zero, h]
    norm_num
  exact ⟨h, h2, by rw [h2]; norm_num [abs_lt]⟩

/-- C3 counterexample.  `closest_round_division([1000,1000,1000], [1, 1/3, 1/3])`
does not return the documented matrix: the first fraction is `1`, so
column 0 of every row carries the full amount `1000`. -/
theorem C3_counterexample :
    ((closest_round_division [1000, 1000, 1000] [1, 1/3, 1/3]).map
        fun r => r.getD 0 0) = [1000, 1000, 1000] ∧
      closest_round_division [1000, 1000, 1000] [1, 1/3, 1/3]
        ≠ [[333, 333, 334], [333, 334, 333], [334, 333, 333]] := by
  have h : closest_round_division [1000, 1000, 1000] [1, 1/3, 1/3]
      = [[1000, 333, 333], [1000, 333, 334], [1000, 334, 333]] := by
    norm_num [closest_round_division, runDiv, runRows, stepRow, initState,
      round_to_int_if_close, distribute, truncQ, bump, abs_lt,
      List.getD_cons_zero, List.getD_cons_succ, List.set_cons_zero, List.set_cons_succ,
      Int.toNat_ofNat, List.take_of_length_le, List.drop_of_length_le,
      List.getElem_cons_zero, List.getElem_cons_succ,
      List.insertionSort, List.orderedInsert, lePosP, leNegP, List.range_succ]
    all_goals decide
  rw [h]
  exact ⟨by norm_num, by decide⟩

/-- C3 amended.  With the fraction list `[1/3, 1/3, 1/3]` (the evident
intent of the docstring's three-friends example) the documented matrix is
produced exactly. -/
theorem C3_amended :
    closest_round_division [1000, 1000, 1000] [1/3, 1/3, 1/3]
      = [[333, 333, 334], [333, 334, 333], [334, 333, 333]] := by
  norm_num [closest_round_division, runDiv, runRows, stepRow, initState,
    round_to_int_if_close, distribute, truncQ, bump, abs_lt,
    List.getD_cons_zero, List.getD_cons_succ, List.set_cons_zero, List.set_cons_succ,
    Int.toNat_ofNat, List.take_of_length_le, List.drop_of_length_le,
    List.getElem_cons_zero, List.getElem_cons_succ,
    List.insertionSort, List.orderedInsert, lePosP, leNegP, List.range_succ]

/-- C8 counterexample.  An empty fraction list is not surfaced as an error
for every amounts list: with empty amounts the call returns the empty
matrix normally. -/
theorem C8_counterexample :
    closest_round_division_checked [] [] = Except.ok [] := by
  norm_num [closest_round_division_checked, runRowsChecked, initState]

/-- C8 amended.  `closest_round_division` performs no input validation for
an empty fraction vector: with non-empty amounts the first processed row
trips the internal ledger assert's indexing of the empty `col_errors`
list (an `IndexError`, not an `InvalidInput`-style validation error);
with empty amounts no error occurs at all and the empty matrix is
returned. -/
theorem C8_amended :
    (∀ (n : ℤ) (ns : List ℤ),
        closest_round_division_checked (n :: ns) []
          = Except.error PyError.indexError)
    ∧ closest_round_division_checked [] [] = Except.ok [] := by
  refine ⟨fun n ns => ?_, ?_⟩
  · norm_num [closest_round_division_checked, runRowsChecked, stepRow, initState,
      checkRow, distribute, round_to_int_if_close, truncQ_zero, abs_lt]
  · norm_num [closest_round_division_checked, runRowsChecked, initState]

theorem checkRow_ne_zeroDiv (st : DivState) (row : List ℤ) (n : ℤ) (scale : ℚ) :
    checkRow st row n scale ≠ some PyError.zeroDivisionError := by
  unfold checkRow
  rcases st.colErrors with _ | ⟨p, rest⟩
  · simp
  · split_ifs <;> simp

theorem runRowsChecked_ne_zeroDiv (scale : ℚ) (fractions : List ℚ)
    (ns : List ℤ) (st : DivState) :
    runRowsChecked scale fractions st ns
      ≠ Except.error PyError.zeroDivisionError := by
  induction ns generalizing st with
  | nil => simp [runRowsChecked]
  | cons n ns ih =>
    simp only [runRowsChecked]
    cases h : checkRow (stepRow scale fractions st n).2
        (stepRow scale fractions st n).1 n scale with
    | some e =>
      intro hcontra
      injection hcontra with he
      exact checkRow_ne_zeroDiv _ _ n scale (he ▸ h)
    | none =>
      cases h2 : runRowsChecked scale fractions (stepRow scale fractions st n).2 ns with
      | error e =>
        intro hcontra
        injection hcontra with he
        exact ih _ (he ▸ h2)
      | ok rest => simp

theorem crd_checked_ne_zeroDiv (numbers : List ℤ) (fractions : List ℚ) :
    closest_round_division_checked numbers fractions
      ≠ Except.error PyError.zeroDivisionError := by
  unfold closest_round_division_checked
  cases h : runRowsChecked (round_to_int_if_close fractions.sum) fractions
      (initState fractions) numbers with
  | error e =>
    intro hcontra
    injection hcontra with he
    exact runRowsChecked_ne_zeroDiv _ _ _ _ (he ▸ h)
  | ok ms =>
    dsimp only
    split_ifs <;> simp

/-- C9 counterexample.  With an empty weight vector the sum is zero but no
divide-by-zero error is raised: the normalizing comprehension runs over no
elements and both wrappers return the empty matrix. -/
theorem C9_counterexample :
    List.sum ([] : List ℚ) = 0 ∧ split_list [] [] = Except.ok [] ∧
      List.sum ([] : List ℤ) = 0 ∧ refund [] [] = Except.ok [] := by
  refine ⟨rfl, ?_, rfl, ?_⟩ <;>
    norm_num [split_list, refund, closest_round_division_checked,
      runRowsChecked, initState]

/-- C9 amended.  For NON-EMPTY weight vectors, `split` raises
`ZeroDivisionError` iff the shares sum to zero and `refund` raises it iff
the charge allocation vector sums to zero; with a nonzero sum each
delegates to `closest_round_division` on the normalized fractions.  (With
an empty vector, the sum is zero but no division is executed, so no
`ZeroDivisionError` is raised.) -/
theorem C9_amended (amounts : List ℤ) (shares : List ℚ)
    (refunds : List ℤ) (charge : List ℤ)
    (hs : shares ≠ []) (hc : charge ≠ []) :
    ((split_list amounts shares = Except.error PyError.zeroDivisionError)
        ↔ shares.sum = 0)
    ∧ ((refund refunds charge = Except.error PyError.zeroDivisionError)
        ↔ charge.sum = 0)
    ∧ (shares.sum ≠ 0 →
        split_list amounts shares
          = closest_round_division_checked amounts
              (shares.map fun s => s / shares.sum))
    ∧ (charge.sum ≠ 0 →
        refund refunds charge
          = closest_round_division_checked refunds
              (charge.map fun a => (a : ℚ) / (charge.sum : ℚ))) := by
  refine ⟨⟨?_, ?_⟩, ⟨?_, ?_⟩, ?_, ?_⟩
  · intro h
    by_contra hsum
    rw [split_list, if_neg (by tauto)] at h
    exact crd_checked_ne_zeroDiv _ _ h
  · intro hsum
    rw [split_list, if_pos ⟨hs, hsum⟩]
  · intro h
    by_contra hsum
    rw [refund, if_neg (by tauto)] at h
    exact crd_checked_ne_zeroDiv _ _ h
  · intro hsum
    rw [refund, if_pos ⟨hc, hsum⟩]
  · intro hsum
    rw [split_list, if_neg (by tauto)]
  · intro hsum
    rw [refund, if_neg (by tauto)]

theorem C9_amended_witness :
    (([(1 : ℚ), 1] ≠ []) ∧ (([2, 2] : List ℤ) ≠ [])) ∧
      (((split_list [2] [(1 : ℚ), 1] = Except.error PyError.zeroDivisionError)
          ↔ List.sum [(1 : ℚ), 1] = 0)
      ∧ ((refund [3] [2, 2] = Except.error PyError.zeroDivisionError)
          ↔ List.sum ([2, 2] : List ℤ) = 0)
      ∧ (List.sum [(1 : ℚ), 1] ≠ 0 →
          split_list [2] [(1 : ℚ), 1]
            = closest_round_division_checked [2]
                ([(1 : ℚ), 1].map fun s => s / List.sum [(1 : ℚ), 1]))
      ∧ (List.sum ([2, 2] : List ℤ) ≠ 0 →
          refund [3] [2, 2]
            = closest_round_division_checked [3]
                (([2, 2] : List ℤ).map fun a =>
                  (a : ℚ) / ((List.sum ([2, 2] : List ℤ) : ℤ) : ℚ)))) :=
  ⟨⟨by simp, by simp⟩, C9_amended [2] [(1 : ℚ), 1] [3] [2, 2] (by simp) (by simp)⟩

theorem range_map_getD (g : ℚ → ℚ) (l : List ℚ) :
    (List.range l.length).map (fun c => g (l.getD c 0)) = l.map g := by
  induction l with
  | nil => simp
  | cons x l ih =>
    rw [List.length_cons, List.range_succ_eq_map, List.map_cons, List.map_map,
      List.getD_cons_zero, List.map_cons]
    congr 1

theorem sum_decomp_list (fr : List ℚ) (n : ℤ) :
    (n : ℚ) * fr.sum
      = ((fr.map fun f => truncQ (f * (n : ℚ))).sum : ℤ)
        + (fr.map fun f => f * (n : ℚ) - truncQ (f * (n : ℚ))).sum := by
  induction fr with
  | nil => simp
  | cons f fr ih =>
    simp only [List.map_cons, List.sum_cons, List.sum_cons]
    push_cast
    push_cast at ih
    linarith [ih]

theorem eVal_range_eq (fr : List ℚ) (n : ℤ) :
    ((List.range fr.length).map fun c => eVal fr n c)
      = fr.map fun f => f * (n : ℚ) - truncQ (f * (n : ℚ)) := by
  have h := range_map_getD (fun f => f * (n : ℚ) - truncQ (f * (n : ℚ))) fr
  simpa [eVal] using h

theorem exact_sum_decomp (fr : List ℚ) (n : ℤ) :
    (n : ℚ) * fr.sum
      = ((fr.map fun f => truncQ (f * (n : ℚ))).sum : ℤ)
        + ((List.range fr.length).map fun c => eVal fr n c).sum := by
  rw [eVal_range_eq]
  exact sum_decomp_list fr n

theorem colPairs_snd (fr : List ℚ) (n : ℤ) :
    (colPairs fr n).map Prod.snd = List.range fr.length := by
  rw [colPairs, List.map_map]
  exact List.map_id _

theorem colPairs_snd_nodup (fr : List ℚ) (n : ℤ) :
    ((colPairs fr n).map Prod.snd).Nodup := by
  rw [colPairs_snd]
  exact List.nodup_range _

theorem colPairs_mem {fr : List ℚ} {n : ℤ} {p : ℚ × ℕ}
    (h : p ∈ colPairs fr n) : p = (eVal fr n p.2, p.2) ∧ p.2 < fr.length := by
  rw [colPairs, List.mem_map] at h
  obtain ⟨c, hc, hp⟩ := h
  rw [List.mem_range] at hc
  subst hp
  exact ⟨rfl, hc⟩

theorem mem_colPairs {fr : List ℚ} {n : ℤ} {c : ℕ} (hc : c < fr.length) :
    (eVal fr n c, c) ∈ colPairs fr n := by
  rw [colPairs, List.mem_map]
  exact ⟨c, List.mem_range.mpr hc, rfl⟩

theorem eVal_lt_one (fr : List ℚ) (n : ℤ) (c : ℕ) : eVal fr n c < 1 :=
  sub_truncQ_lt_one _

theorem neg_one_lt_eVal (fr : List ℚ) (n : ℤ) (c : ℕ) : -1 < eVal fr n c :=
  neg_one_lt_sub_truncQ _

theorem stepRow_init_eq (scale : ℚ) (fr : List ℚ) (n : ℤ) :
    (stepRow scale fr (initState fr) n).1
      = (distribute (rowRemainder fr scale n)
          (fr.map fun f => truncQ (f * (n : ℚ))) (colPairs fr n)).1 := by
  have hB1 := neg_one_lt_sub_truncQ ((n : ℚ) * scale)
  have hB2 := sub_truncQ_lt_one ((n : ℚ) * scale)
  simp only [stepRow, initState]
  split_ifs with h1 h2
  · exfalso
    linarith
  · exfalso
    linarith
  have hcol : ((List.range fr.length).map fun c => ((0 : ℚ), c)).map
        (fun p => (p.1 + (fr.getD p.2 0 * (n : ℚ)
          - ((truncQ (fr.getD p.2 0 * (n : ℚ)) : ℤ) : ℚ)), p.2))
      = colPairs fr n := by
    rw [List.map_map, colPairs]
    apply List.map_congr_left
    intro c _
    simp only [Function.comp]
    exact Prod.ext (by rw [eVal]; ring) rfl
  rw [hcol]
  rfl

theorem bump_length (d : ℤ) (row : List ℤ) (c : ℕ) :
    (bump d row c).length = row.length := by
  simp [bump]

theorem bump_getD_self (d : ℤ) (row : List ℤ) (c : ℕ) (hc : c < row.length) :
    (bump d row c).getD c 0 = row.getD c 0 + d := by
  rw [bump, List.getD_eq_getElem?_getD, List.getElem?_set_self hc]
  rfl

theorem bump_getD_ne (d : ℤ) (row : List ℤ) (c j : ℕ) (h : c ≠ j) :
    (bump d row c).getD j 0 = row.getD j 0 := by
  rw [bump]
  exact getD_set_ne _ _ _ _ h

theorem foldl_bump_getD (cols : List ℕ) (d : ℤ) (row : List ℤ) (j : ℕ)
    (hj : j < row.length) :
    (cols.foldl (bump d) row).getD j 0 = row.getD j 0 + d * cols.count j := by
  induction cols generalizing row with
  | nil => simp
  | cons c cols ih =>
    rw [List.foldl_cons]
    rw [ih (bump d row c) (by rw [bump_length]; exact hj)]
    by_cases h : c = j
    · subst h
      rw [bump_getD_self d row c hj, List.count_cons_self]
      push_cast
      ring
    · rw [bump_getD_ne d row c j h, List.count_cons_of_ne (Ne.symm h)]

theorem sum_le_countP_pos (l : List ℚ) (h : ∀ x ∈ l, x < 1) :
    l.sum ≤ (l.countP (fun x => decide (0 < x)) : ℚ) := by
  induction l with
  | nil => simp
  | cons x l ih =>
    have hx := h x (List.mem_cons_self x l)
    have ihl := ih fun y hy => h y (List.mem_cons_of_mem x hy)
    rw [List.sum_cons, List.countP_cons]
    by_cases hpos : 0 < x
    · rw [if_pos (by simpa using hpos)]
      push_cast
      linarith
    · rw [if_neg (by simpa using hpos)]
      push_cast
      have hx0 : x ≤ 0 := not_lt.mp hpos
      linarith

theorem neg_countP_le_sum (l : List ℚ) (h : ∀ x ∈ l, -1 < x) :
    -(l.countP (fun x => decide (x < 0)) : ℚ) ≤ l.sum := by
  induction l with
  | nil => simp
  | cons x l ih =>
    have hx := h x (List.mem_cons_self x l)
    have ihl := ih fun y hy => h y (List.mem_cons_of_mem x hy)
    rw [List.sum_cons, List.countP_cons]
    by_cases hneg : x < 0
    · rw [if_pos (by simpa using hneg)]
      push_cast
      linarith
    · rw [if_neg (by simpa using hneg)]
      push_cast
      have hx0 : 0 ≤ x := not_lt.mp hneg
      linarith

theorem sorted_drop_pos (M : List (ℚ × ℕ)) (r : ℕ)
    (hr : r ≤ M.countP (fun p => decide (0 < p.1))) :
    ∀ p ∈ (List.insertionSort lePosP M).drop
      ((List.insertionSort lePosP M).length - r), 0 < p.1 := by
  intro p hp
  by_contra hnp
  push_neg at hnp
  set S := List.insertionSort lePosP M with hS
  set k := S.length - r with hk
  have hlen : S.length = M.length := List.length_insertionSort _ _
  have hcount : S.countP (fun p => decide (0 < p.1))
      = M.countP (fun p => decide (0 < p.1)) :=
    (List.perm_insertionSort lePosP M).countP_eq _
  have hsorted : List.Sorted lePosP S := List.sorted_insertionSort _ _
  have hsplit := List.take_append_drop k S
  have hpair : List.Pairwise lePosP (S.take k ++ S.drop k) := by
    rw [hsplit]
    exact hsorted
  have hcross := (List.pairwise_append.mp hpair).2.2
  have htake0 : (S.take k).countP (fun p => decide (0 < p.1)) = 0 := by
    rw [List.countP_eq_zero]
    intro q hq
    have hle := lePosP_fst (hcross q hq p hp)
    simp only [decide_eq_true_eq]
    push_neg
    linarith
  have hdropcount : (S.drop k).countP (fun p => decide (0 < p.1))
      < (S.drop k).length := by
    have hle := List.countP_le_length (fun q => decide (0 < q.1)) (l := S.drop k)
    have hne : (S.drop k).countP (fun q => decide (0 < q.1))
        ≠ (S.drop k).length := by
      intro heq
      have hall := List.countP_eq_length.mp heq p hp
      simp only [decide_eq_true_eq] at hall
      linarith
    exact lt_of_le_of_ne hle hne
  have hcount2 : S.countP (fun p => decide (0 < p.1))
      = (S.take k).countP (fun p => decide (0 < p.1))
        + (S.drop k).countP (fun p => decide (0 < p.1)) := by
    conv_lhs => rw [← hsplit]
    exact List.countP_append _ _ _
  have hdroplen : (S.drop k).length = S.length - k := List.length_drop _ _
  have hrS : r ≤ S.countP (fun p => decide (0 < p.1)) := by
    rw [hcount]
    exact hr
  have hcountlen : S.countP (fun p => decide (0 < p.1)) ≤ S.length :=
    List.countP_le_length _
  omega

theorem sorted_take_neg (M : List (ℚ × ℕ)) (r : ℕ)
    (hr : r ≤ M.countP (fun p => decide (p.1 < 0))) :
    ∀ p ∈ (List.insertionSort leNegP M).take r, p.1 < 0 := by
  intro p hp
  by_contra hnp
  push_neg at hnp
  set S := List.insertionSort leNegP M with hS
  have hlen : S.length = M.length := List.length_insertionSort _ _
  have hcount : S.countP (fun p => decide (p.1 < 0))
      = M.countP (fun p => decide (p.1 < 0)) :=
    (List.perm_insertionSort leNegP M).countP_eq _
  have hsorted : List.Sorted leNegP S := List.sorted_insertionSort _ _
  have hsplit := List.take_append_drop r S
  have hpair : List.Pairwise leNegP (S.take r ++ S.drop r) := by
    rw [hsplit]
    exact hsorted
  have hcross := (List.pairwise_append.mp hpair).2.2
  have hdrop0 : (S.drop r).countP (fun p => decide (p.1 < 0)) = 0 := by
    rw [List.countP_eq_zero]
    intro q hq
    have hle := leNegP_fst (hcross p hp q hq)
    simp only [decide_eq_true_eq]
    push_neg
    linarith
  have htakecount : (S.take r).countP (fun p => decide (p.1 < 0))
      < (S.take r).length := by
    have hle := List.countP_le_length (fun q => decide (q.1 < 0)) (l := S.take r)
    have hne : (S.take r).countP (fun q => decide (q.1 < 0))
        ≠ (S.take r).length := by
      intro heq
      have hall := List.countP_eq_length.mp heq p hp
      simp only [decide_eq_true_eq] at hall
      linarith
    exact lt_of_le_of_ne hle hne
  have hcount2 : S.countP (fun p => decide (p.1 < 0))
      = (S.take r).countP (fun p => decide (p.1 < 0))
        + (S.drop r).countP (fun p => decide (p.1 < 0)) := by
    conv_lhs => rw [← hsplit]
    exact List.countP_append _ _ _
  have htakelen : (S.take r).length = min r S.length := List.length_take _ _
  have hrS : r ≤ S.countP (fun p => decide (p.1 < 0)) := by
    rw [hcount]
    exact hr
  have hcountlen : S.countP (fun p => decide (p.1 < 0)) ≤ S.length :=
    List.countP_le_length _
  omega

theorem distribute_pos_getD (r : ℤ) (hr : 0 < r) (row : List ℤ)
    (M : List (ℚ × ℕ)) (hnodup : (M.map Prod.snd).Nodup) (j : ℕ)
    (hj : j < row.length) :
    ((distribute r row M).1).getD j 0
      = row.getD j 0
        + (if j ∈ ((List.insertionSort lePosP M).drop
            ((List.insertionSort lePosP M).length - r.toNat)).map Prod.snd
          then 1 else 0) := by
  unfold distribute
  rw [if_pos hr]
  set S := List.insertionSort lePosP M with hS
  set k := S.length - r.toNat with hk
  rw [foldl_bump_getD _ _ _ _ hj]
  have hnodupS : (S.map Prod.snd).Nodup :=
    (((List.perm_insertionSort lePosP M).map Prod.snd).nodup_iff).mpr hnodup
  have hselnodup : ((S.drop k).map Prod.snd).Nodup := by
    rw [List.map_drop]
    exact (List.drop_sublist _ _).nodup hnodupS
  by_cases hmem : j ∈ (S.drop k).map Prod.snd
  · rw [List.count_eq_one_of_mem hselnodup hmem, if_pos hmem]
    ring
  · rw [List.count_eq_zero_of_not_mem hmem, if_neg hmem]
    ring

theorem distribute_neg_getD (r : ℤ) (hr : r < 0) (row : List ℤ)
    (M : List (ℚ × ℕ)) (hnodup : (M.map Prod.snd).Nodup) (j : ℕ)
    (hj : j < row.length) :
    ((distribute r row M).1).getD j 0
      = row.getD j 0
        - (if j ∈ ((List.insertionSort leNegP M).take (-r).toNat).map Prod.snd
          then 1 else 0) := by
  unfold distribute
  rw [if_neg (by linarith), if_pos hr]
  set S := List.insertionSort leNegP M with hS
  set k := (-r).toNat with hk
  rw [foldl_bump_getD _ _ _ _ hj]
  have hnodupS : (S.map Prod.snd).Nodup :=
    (((List.perm_insertionSort leNegP M).map Prod.snd).nodup_iff).mpr hnodup
  have hselnodup : ((S.take k).map Prod.snd).Nodup := by
    rw [List.map_take]
    exact (List.take_sublist _ _).nodup hnodupS
  by_cases hmem : j ∈ (S.take k).map Prod.snd
  · rw [List.count_eq_one_of_mem hselnodup hmem, if_pos hmem]
    ring
  · rw [List.count_eq_zero_of_not_mem hmem, if_neg hmem]
    ring

theorem distribute_zero_getD (row : List ℤ) (M : List (ℚ × ℕ)) (j : ℕ) :
    ((distribute 0 row M).1).getD j 0 = row.getD j 0 := by
  unfold distribute
  rw [if_neg (by norm_num), if_neg (by norm_num)]

theorem row_getD (fr : List ℚ) (n : ℤ) (j : ℕ) (hj : j < fr.length) :
    (fr.map fun f => truncQ (f * (n : ℚ))).getD j 0
      = truncQ (fr.getD j 0 * (n : ℚ)) := by
  rw [List.getD_eq_getElem _ 0 (by simpa using hj), List.getElem_map,
    List.getD_eq_getElem fr 0 hj]

theorem countP_colPairs_pos (fr : List ℚ) (n : ℤ) :
    ((List.range fr.length).map fun c => eVal fr n c).countP
        (fun x => decide (0 < x))
      = (colPairs fr n).countP (fun p => decide (0 < p.1)) := by
  rw [colPairs, List.countP_map, List.countP_map]
  rfl

theorem countP_colPairs_neg (fr : List ℚ) (n : ℤ) :
    ((List.range fr.length).map fun c => eVal fr n c).countP
        (fun x => decide (x < 0))
      = (colPairs fr n).countP (fun p => decide (p.1 < 0)) := by
  rw [colPairs, List.countP_map, List.countP_map]
  rfl

theorem rowRemainder_le (fr : List ℚ) (n : ℤ) :
    rowRemainder fr fr.sum n
      ≤ ((colPairs fr n).countP (fun p => decide (0 < p.1)) : ℤ) := by
  set I := (fr.map fun f => truncQ (f * (n : ℚ))).sum with hI
  set E := ((List.range fr.length).map fun c => eVal fr n c).sum with hE
  have hdecomp : (n : ℚ) * fr.sum = (I : ℚ) + E := by
    rw [hI, hE]
    exact_mod_cast exact_sum_decomp fr n
  have hEle : E ≤ (((List.range fr.length).map fun c => eVal fr n c).countP
      (fun x => decide (0 < x)) : ℚ) := by
    apply sum_le_countP_pos
    intro x hx
    rw [List.mem_map] at hx
    obtain ⟨c, _, hc⟩ := hx
    rw [← hc]
    exact eVal_lt_one fr n c
  have hceil : truncQ ((n : ℚ) * fr.sum) ≤ ⌈E⌉ + I := by
    calc truncQ ((n : ℚ) * fr.sum) ≤ ⌈(n : ℚ) * fr.sum⌉ := truncQ_le_ceil _
    _ = ⌈E + (I : ℚ)⌉ := by rw [hdecomp, add_comm]
    _ = ⌈E⌉ + I := Int.ceil_add_int _ _
  have hceil2 : ⌈E⌉ ≤ (((List.range fr.length).map fun c => eVal fr n c).countP
      (fun x => decide (0 < x)) : ℤ) := Int.ceil_le.mpr (by exact_mod_cast hEle)
  rw [rowRemainder, ← countP_colPairs_pos]
  omega

theorem neg_rowRemainder_le (fr : List ℚ) (n : ℤ) :
    -rowRemainder fr fr.sum n
      ≤ ((colPairs fr n).countP (fun p => decide (p.1 < 0)) : ℤ) := by
  set I := (fr.map fun f => truncQ (f * (n : ℚ))).sum with hI
  set E := ((List.range fr.length).map fun c => eVal fr n c).sum with hE
  have hdecomp : (n : ℚ) * fr.sum = (I : ℚ) + E := by
    rw [hI, hE]
    exact_mod_cast exact_sum_decomp fr n
  have hEge : -(((List.range fr.length).map fun c => eVal fr n c).countP
      (fun x => decide (x < 0)) : ℚ) ≤ E := by
    apply neg_countP_le_sum
    intro x hx
    rw [List.mem_map] at hx
    obtain ⟨c, _, hc⟩ := hx
    rw [← hc]
    exact neg_one_lt_eVal fr n c
  have hfloor : ⌊E⌋ + I ≤ truncQ ((n : ℚ) * fr.sum) := by
    calc ⌊E⌋ + I = ⌊E + (I : ℚ)⌋ := (Int.floor_add_int _ _).symm
    _ = ⌊(n : ℚ) * fr.sum⌋ := by rw [hdecomp, add_comm]
    _ ≤ truncQ ((n : ℚ) * fr.sum) := floor_le_truncQ _
  have hfloor2 : -(((List.range fr.length).map fun c => eVal fr n c).countP
      (fun x => decide (x < 0)) : ℤ) ≤ ⌊E⌋ := by
    apply Int.le_floor.mpr
    push_cast
    exact_mod_cast hEge
  rw [rowRemainder, ← countP_colPairs_neg]
  omega

theorem sel_pair_of_mem_pos {fr : List ℚ} {n : ℤ} {k j : ℕ}
    (hmem : j ∈ ((List.insertionSort lePosP (colPairs fr n)).drop k).map Prod.snd) :
    (eVal fr n j, j) ∈ (List.insertionSort lePosP (colPairs fr n)).drop k := by
  rw [List.mem_map] at hmem
  obtain ⟨p, hp, hpj⟩ := hmem
  have hpM : p ∈ colPairs fr n :=
    ((List.perm_insertionSort lePosP (colPairs fr n)).mem_iff).mp
      ((List.drop_sublist _ _).subset hp)
  have hshape := (colPairs_mem hpM).1
  have heq : p = (eVal fr n j, j) := by
    rw [hshape, hpj]
  rw [← heq]
  exact hp

theorem sel_pair_of_mem_neg {fr : List ℚ} {n : ℤ} {k j : ℕ}
    (hmem : j ∈ ((List.insertionSort leNegP (colPairs fr n)).take k).map Prod.snd) :
    (eVal fr n j, j) ∈ (List.insertionSort leNegP (colPairs fr n)).take k := by
  rw [List.mem_map] at hmem
  obtain ⟨p, hp, hpj⟩ := hmem
  have hpM : p ∈ colPairs fr n :=
    ((List.perm_insertionSort leNegP (colPairs fr n)).mem_iff).mp
      ((List.take_sublist _ _).subset hp)
  have hshape := (colPairs_mem hpM).1
  have heq : p = (eVal fr n j, j) := by
    rw [hshape, hpj]
  rw [← heq]
  exact hp

theorem singleRow_entry_exact (fr : List ℚ) (n : ℤ) (j : ℕ) (hj : j < fr.length)
    (he : eVal fr n j = 0) :
    ((stepRow fr.sum fr (initState fr) n).1).getD j 0
      = truncQ (fr.getD j 0 * (n : ℚ)) := by
  rw [stepRow_init_eq]
  set r := rowRemainder fr fr.sum n with hr
  have hlenrow : j < (fr.map fun f => truncQ (f * (n : ℚ))).length := by
    simpa using hj
  rcases lt_trichotomy r 0 with hrneg | hrzero | hrpos
  · have hnotmem : j ∉ ((List.insertionSort leNegP (colPairs fr n)).take
        ((-r).toNat)).map Prod.snd := by
      intro hmem
      have hpair := sel_pair_of_mem_neg hmem
      have hcount : (-r).toNat
          ≤ (colPairs fr n).countP fun p => decide (p.1 < 0) :=
        Int.toNat_le.mpr (neg_rowRemainder_le fr n)
      have hlt := sorted_take_neg (colPairs fr n) _ hcount _ hpair
      have hlt' : eVal fr n j < 0 := hlt
      rw [he] at hlt'
      exact lt_irrefl _ hlt'
    rw [distribute_neg_getD r hrneg _ _ (colPairs_snd_nodup fr n) j hlenrow,
      if_neg hnotmem, sub_zero, row_getD fr n j hj]
  · rw [hrzero, distribute_zero_getD, row_getD fr n j hj]
  · have hnotmem : j ∉ ((List.insertionSort lePosP (colPairs fr n)).drop
        ((List.insertionSort lePosP (colPairs fr n)).length - r.toNat)).map
          Prod.snd := by
      intro hmem
      have hpair := sel_pair_of_mem_pos hmem
      have hcount : r.toNat
          ≤ (colPairs fr n).countP fun p => decide (0 < p.1) :=
        Int.toNat_le.mpr (rowRemainder_le fr n)
      have hlt := sorted_drop_pos (colPairs fr n) _ hcount _ hpair
      have hlt' : 0 < eVal fr n j := hlt
      rw [he] at hlt'
      exact lt_irrefl _ hlt'
    rw [distribute_pos_getD r hrpos _ _ (colPairs_snd_nodup fr n) j hlenrow,
      if_neg hnotmem, add_zero, row_getD fr n j hj]

/-- C7 amended.  For a single amount `n`, provided the snap heuristic does
not alter the fraction sum, a column whose exact contribution `f_j * n`
is an integer is never touched by the remainder distributor: in
particular a fraction of exactly `0` yields `0` in that column, and a
fraction of exactly `1` (e.g. `0` alongside `1`) reproduces the amount
unchanged.  (For multiple amounts the property fails, see the
accompanying analysis; e.g. `amounts = [-10,-22,19,30,-27,19]`,
`fractions = [1/3, 0, 8/9, 0]` puts a nonzero entry in the last zero
column.) -/
theorem C7_amended (n : ℤ) (fractions : List ℚ) (j : ℕ)
    (hj : j < fractions.length)
    (hsnap : round_to_int_if_close fractions.sum = fractions.sum) :
    (fractions.getD j 0 = 0 →
        ((closest_round_division [n] fractions).getD 0 []).getD j 0 = 0)
    ∧ (fractions.getD j 0 = 1 →
        ((closest_round_division [n] fractions).getD 0 []).getD j 0 = n) := by
  have hcrd : (closest_round_division [n] fractions).getD 0 []
      = (stepRow fractions.sum fractions (initState fractions) n).1 := by
    simp only [closest_round_division, runDiv, runRows, hsnap]
    rfl
  constructor
  · intro hf
    have he : eVal fractions n j = 0 := by
      rw [eVal, hf]
      simp [truncQ_zero]
    rw [hcrd, singleRow_entry_exact fractions n j hj he, hf]
    simp [truncQ_zero]
  · intro hf
    have he : eVal fractions n j = 0 := by
      rw [eVal, hf, one_mul, truncQ_intCast]
      ring
    rw [hcrd, singleRow_entry_exact fractions n j hj he, hf, one_mul,
      truncQ_intCast]

theorem C7_amended_witness :
    ((1 : ℕ) < ([1, 0] : List ℚ).length
      ∧ round_to_int_if_close ([1, 0] : List ℚ).sum = ([1, 0] : List ℚ).sum)
    ∧ ((([1, 0] : List ℚ).getD 1 0 = 0 →
        ((closest_round_division [5] [1, 0]).getD 0 []).getD 1 0 = 0)
      ∧ (([1, 0] : List ℚ).getD 1 0 = 1 →
        ((closest_round_division [5] [1, 0]).getD 0 []).getD 1 0 = 5)) :=
  ⟨⟨by norm_num, by norm_num [round_to_int_if_close, truncQ, abs_lt]⟩,
    C7_amended 5 [1, 0] 1 (by norm_num)
      (by norm_num [round_to_int_if_close, truncQ, abs_lt])⟩

/-- C7 counterexample.  Zero handling fails with several amounts: with
`amounts = [-12, -28]` and `fractions = [25, -1/8, -25/9, 0]` the last
column has fraction exactly `0` yet receives `1` in the second row (and
the source's asserts all pass on this input, so the matrix is returned
normally). -/
theorem C7_counterexample :
    ([25, -1/8, -25/9, 0] : List ℚ).getD 3 0 = 0 ∧
      closest_round_division [-12, -28] [25, -1/8, -25/9, 0]
        = [[-300, 2, 33, 0], [-700, 3, 78, 1]] ∧
      ((closest_round_division [-12, -28] [25, -1/8, -25/9, 0]).getD 1 []).getD 3 0
        ≠ 0 := by
  have h : closest_round_division [-12, -28] [25, -1/8, -25/9, 0]
      = [[-300, 2, 33, 0], [-700, 3, 78, 1]] := by
    norm_num [closest_round_division, runDiv, runRows, stepRow, initState,
      round_to_int_if_close, distribute, truncQ, bump, abs_lt,
      List.getD_cons_zero, List.getD_cons_succ, List.set_cons_zero, List.set_cons_succ,
      Int.toNat_ofNat, List.take_of_length_le, List.drop_of_length_le,
      List.getElem_cons_zero, List.getElem_cons_succ,
      List.insertionSort, List.orderedInsert, lePosP, leNegP, List.range_succ]
    all_goals decide
  refine ⟨by norm_num, h, ?_⟩
  rw [h]
  decide

/-- C6 counterexample.  Local optimality fails as stated: with
`amounts = [1]` and `fractions = [9/10, -9/10]` the result is `[[0, 0]]`,
and moving one unit from column 1 to column 0 within the single row
strictly decreases the aggregate squared deviation (from `81/50` to
`1/50`). -/
theorem C6_counterexample :
    closest_round_division [1] [9/10, -9/10] = [[0, 0]] ∧
      aggSqDev [9/10, -9/10] [1]
          (nudge (closest_round_division [1] [9/10, -9/10]) 0 1 0)
        < aggSqDev [9/10, -9/10] [1] (closest_round_division [1] [9/10, -9/10]) := by
  have h : closest_round_division [1] [9/10, -9/10] = [[0, 0]] := by
    norm_num [closest_round_division, runDiv, runRows, stepRow, initState,
      round_to_int_if_close, distribute, truncQ, bump, abs_lt,
      List.getD_cons_zero, List.getD_cons_succ, List.set_cons_zero, List.set_cons_succ,
      Int.toNat_ofNat, List.take_of_length_le, List.drop_of_length_le,
      List.getElem_cons_zero, List.getElem_cons_succ,
      List.insertionSort, List.orderedInsert, lePosP, leNegP, List.range_succ]
  rw [h]
  norm_num [aggSqDev, nudge, colTotal, Finset.sum_range_succ,
    List.getD_cons_zero, List.getD_cons_succ, List.set_cons_zero,
    List.set_cons_succ]

theorem foldl_bump_length (cols : List ℕ) (d : ℤ) (row : List ℤ) :
    (cols.foldl (bump d) row).length = row.length := by
  induction cols generalizing row with
  | nil => rfl
  | cons c cols ih =>
    rw [List.foldl_cons, ih, bump_length]

theorem distribute_length (r : ℤ) (row : List ℤ) (M : List (ℚ × ℕ)) :
    ((distribute r row M).1).length = row.length := by
  unfold distribute
  split_ifs <;> first
    | exact foldl_bump_length _ _ _
    | rfl

theorem stepRow_init_length (scale : ℚ) (fr : List ℚ) (n : ℤ) :
    ((stepRow scale fr (initState fr) n).1).length = fr.length := by
  rw [stepRow_init_eq, distribute_length, List.length_map]

theorem getD_eVal (fr : List ℚ) (n : ℤ) (c : ℕ) (hc : fr.length ≤ c) :
    eVal fr n c = 0 := by
  rw [eVal, List.getD_eq_default _ _ hc]
  simp [truncQ_zero]

theorem eVal_uniform (fr : List ℚ) (n : ℤ)
    (hsign : (∀ f ∈ fr, 0 ≤ f) ∨ (∀ f ∈ fr, f ≤ 0)) :
    (∀ c, 0 ≤ eVal fr n c ∧ eVal fr n c < 1)
      ∨ (∀ c, -1 < eVal fr n c ∧ eVal fr n c ≤ 0) := by
  have hprod : (∀ c, 0 ≤ fr.getD c 0 * (n : ℚ))
      ∨ (∀ c, fr.getD c 0 * (n : ℚ) ≤ 0) := by
    have hgetD : ∀ c, fr.getD c 0 = 0 ∨ fr.getD c 0 ∈ fr := by
      intro c
      by_cases hc : c < fr.length
      · right
        rw [List.getD_eq_getElem fr 0 hc]
        exact List.getElem_mem _
      · left
        exact List.getD_eq_default _ _ (le_of_not_lt hc)
    rcases hsign with hpos | hneg
    · rcases le_or_lt 0 (n : ℚ) with hn | hn
      · left
        intro c
        rcases hgetD c with h | h
        · rw [h, zero_mul]
        · exact mul_nonneg (hpos _ h) hn
      · right
        intro c
        rcases hgetD c with h | h
        · rw [h, zero_mul]
        · exact mul_nonpos_of_nonneg_of_nonpos (hpos _ h) (le_of_lt hn)
    · rcases le_or_lt 0 (n : ℚ) with hn | hn
      · right
        intro c
        rcases hgetD c with h | h
        · rw [h, zero_mul]
        · exact mul_nonpos_of_nonpos_of_nonneg (hneg _ h) hn
      · left
        intro c
        rcases hgetD c with h | h
        · rw [h, zero_mul]
        · have h2 := mul_nonneg (neg_nonneg.mpr (hneg _ h))
            (neg_nonneg.mpr (le_of_lt hn))
          rw [neg_mul_neg] at h2
          exact h2
  rcases hprod with h | h
  · left
    intro c
    exact ⟨sub_truncQ_nonneg _ (h c), sub_truncQ_lt_one _⟩
  · right
    intro c
    exact ⟨neg_one_lt_sub_truncQ _, sub_truncQ_nonpos _ (h c)⟩

theorem sorted_cross_pos {M : List (ℚ × ℕ)} {k : ℕ} {x y : ℚ × ℕ}
    (hx : x ∈ (List.insertionSort lePosP M).take k)
    (hy : y ∈ (List.insertionSort lePosP M).drop k) : lePosP x y := by
  have hsorted : List.Sorted lePosP (List.insertionSort lePosP M) :=
    List.sorted_insertionSort _ _
  have hpair : List.Pairwise lePosP ((List.insertionSort lePosP M).take k
      ++ (List.insertionSort lePosP M).drop k) := by
    rw [List.take_append_drop]
    exact hsorted
  exact (List.pairwise_append.mp hpair).2.2 x hx y hy

theorem sorted_cross_neg {M : List (ℚ × ℕ)} {k : ℕ} {x y : ℚ × ℕ}
    (hx : x ∈ (List.insertionSort leNegP M).take k)
    (hy : y ∈ (List.insertionSort leNegP M).drop k) : leNegP x y := by
  have hsorted : List.Sorted leNegP (List.insertionSort leNegP M) :=
    List.sorted_insertionSort _ _
  have hpair : List.Pairwise leNegP ((List.insertionSort leNegP M).take k
      ++ (List.insertionSort leNegP M).drop k) := by
    rw [List.take_append_drop]
    exact hsorted
  exact (List.pairwise_append.mp hpair).2.2 x hx y hy

theorem pair_in_take_of_not_sel_pos {fr : List ℚ} {n : ℤ} {k b : ℕ}
    (hb : b < fr.length)
    (hnot : b ∉ ((List.insertionSort lePosP (colPairs fr n)).drop k).map Prod.snd) :
    (eVal fr n b, b) ∈ (List.insertionSort lePosP (colPairs fr n)).take k := by
  have hmemS : (eVal fr n b, b) ∈ List.insertionSort lePosP (colPairs fr n) :=
    ((List.perm_insertionSort lePosP (colPairs fr n)).mem_iff).mpr
      (mem_colPairs hb)
  rw [← List.take_append_drop k (List.insertionSort lePosP (colPairs fr n)),
    List.mem_append] at hmemS
  rcases hmemS with h | h
  · exact h
  · exact absurd (List.mem_map_of_mem Prod.snd h) hnot

theorem pair_in_drop_of_not_sel_neg {fr : List ℚ} {n : ℤ} {k a : ℕ}
    (ha : a < fr.length)
    (hnot : a ∉ ((List.insertionSort leNegP (colPairs fr n)).take k).map Prod.snd) :
    (eVal fr n a, a) ∈ (List.insertionSort leNegP (colPairs fr n)).drop k := by
  have hmemS : (eVal fr n a, a) ∈ List.insertionSort leNegP (colPairs fr n) :=
    ((List.perm_insertionSort leNegP (colPairs fr n)).mem_iff).mpr
      (mem_colPairs ha)
  rw [← List.take_append_drop k (List.insertionSort leNegP (colPairs fr n)),
    List.mem_append] at hmemS
  rcases hmemS with h | h
  · exact absurd (List.mem_map_of_mem Prod.snd h) hnot
  · exact h

theorem singleRow_D_diff (fr : List ℚ) (scale : ℚ) (n : ℤ) (a b : ℕ)
    (ha : a < fr.length) (hb : b < fr.length)
    (hsign : (∀ f ∈ fr, 0 ≤ f) ∨ (∀ f ∈ fr, f ≤ 0)) :
    ((((stepRow scale fr (initState fr) n).1).getD a 0 : ℚ)
        - fr.getD a 0 * (n : ℚ))
      - ((((stepRow scale fr (initState fr) n).1).getD b 0 : ℚ)
        - fr.getD b 0 * (n : ℚ)) ≤ 1 := by
  rw [stepRow_init_eq]
  set r := rowRemainder fr scale n with hrdef
  have hla : a < (fr.map fun f => truncQ (f * (n : ℚ))).length := by simpa using ha
  have hlb : b < (fr.map fun f => truncQ (f * (n : ℚ))).length := by simpa using hb
  have htra : ((truncQ (fr.getD a 0 * (n : ℚ)) : ℤ) : ℚ) - fr.getD a 0 * (n : ℚ)
      = -eVal fr n a := by
    rw [eVal]
    ring
  have htrb : ((truncQ (fr.getD b 0 * (n : ℚ)) : ℤ) : ℚ) - fr.getD b 0 * (n : ℚ)
      = -eVal fr n b := by
    rw [eVal]
    ring
  have huni := eVal_uniform fr n hsign
  have hwidth : ∀ x y : ℕ, eVal fr n x - eVal fr n y < 1 := by
    intro x y
    rcases huni with h | h
    · have h1 := (h x).2
      have h2 := (h y).1
      linarith
    · have h1 := (h x).2
      have h2 := (h y).1
      linarith
  rcases lt_trichotomy r 0 with hrneg | hrzero | hrpos
  · set k := (-r).toNat with hk
    have hga := distribute_neg_getD r hrneg _ _ (colPairs_snd_nodup fr n) a hla
    have hgb := distribute_neg_getD r hrneg _ _ (colPairs_snd_nodup fr n) b hlb
    rw [row_getD fr n a ha] at hga
    rw [row_getD fr n b hb] at hgb
    by_cases hma : a ∈ ((List.insertionSort leNegP (colPairs fr n)).take k).map
        Prod.snd
    · by_cases hmb : b ∈ ((List.insertionSort leNegP (colPairs fr n)).take k).map
          Prod.snd
      · rw [if_pos hmb] at hgb
        rw [if_pos hma] at hga
        rw [hga, hgb]
        push_cast
        linarith [hwidth b a]
      · rw [if_neg hmb] at hgb
        rw [if_pos hma] at hga
        rw [hga, hgb]
        push_cast
        linarith [hwidth b a]
    · by_cases hmb : b ∈ ((List.insertionSort leNegP (colPairs fr n)).take k).map
          Prod.snd
      · have hpb := sel_pair_of_mem_neg hmb
        have hpa := pair_in_drop_of_not_sel_neg ha hma
        have hcross := leNegP_fst (sorted_cross_neg hpb hpa)
        have hba : eVal fr n b ≤ eVal fr n a := hcross
        rw [if_pos hmb] at hgb
        rw [if_neg hma] at hga
        rw [hga, hgb]
        push_cast
        linarith
      · rw [if_neg hmb] at hgb
        rw [if_neg hma] at hga
        rw [hga, hgb]
        push_cast
        linarith [hwidth b a]
  · rw [hrzero, distribute_zero_getD, distribute_zero_getD,
      row_getD fr n a ha, row_getD fr n b hb]
    linarith [hwidth b a]
  · set k := (List.insertionSort lePosP (colPairs fr n)).length - r.toNat with hk
    have hga := distribute_pos_getD r hrpos _ _ (colPairs_snd_nodup fr n) a hla
    have hgb := distribute_pos_getD r hrpos _ _ (colPairs_snd_nodup fr n) b hlb
    rw [row_getD fr n a ha] at hga
    rw [row_getD fr n b hb] at hgb
    by_cases hma : a ∈ ((List.insertionSort lePosP (colPairs fr n)).drop k).map
        Prod.snd
    · by_cases hmb : b ∈ ((List.insertionSort lePosP (colPairs fr n)).drop k).map
          Prod.snd
      · rw [if_pos hmb] at hgb
        rw [if_pos hma] at hga
        rw [hga, hgb]
        push_cast
        linarith [hwidth b a]
      · have hpa := sel_pair_of_mem_pos hma
        have hpb := pair_in_take_of_not_sel_pos hb hmb
        have hcross := lePosP_fst (sorted_cross_pos hpb hpa)
        have hba : eVal fr n b ≤ eVal fr n a := hcross
        rw [if_neg hmb] at hgb
        rw [if_pos hma] at hga
        rw [hga, hgb]
        push_cast
        linarith
    · by_cases hmb : b ∈ ((List.insertionSort lePosP (colPairs fr n)).drop k).map
          Prod.snd
      · rw [if_pos hmb] at hgb
        rw [if_neg hma] at hga
        rw [hga, hgb]
        push_cast
        linarith [hwidth b a]
      · rw [if_neg hmb] at hgb
        rw [if_neg hma] at hga
        rw [hga, hgb]
        push_cast
        linarith [hwidth b a]

/-- C6 amended.  Local optimality holds for a single amount when the
fractions all have one sign: moving one unit between two columns of the
(single) row never strictly decreases the aggregate squared deviation of
the per-column totals from their exact proportional targets.  (With
several amounts the property fails even for nonnegative fractions — e.g.
`amounts = [22, 26, 25, 21]`, `fractions = [2, 1/5, 0, 5/2]` — and with
mixed-sign fractions it already fails for one amount, see the
counterexample.) -/
theorem C6_amended (n : ℤ) (fractions : List ℚ) (i a b : ℕ)
    (hsign : (∀ f ∈ fractions, 0 ≤ f) ∨ (∀ f ∈ fractions, f ≤ 0))
    (ha : a < fractions.length) (hb : b < fractions.length) (hab : a ≠ b) :
    aggSqDev fractions [n] (closest_round_division [n] fractions)
      ≤ aggSqDev fractions [n]
          (nudge (closest_round_division [n] fractions) i a b) := by
  set row := (stepRow (round_to_int_if_close fractions.sum) fractions
    (initState fractions) n).1 with hrowdef
  have hM : closest_round_division [n] fractions = [row] := by
    simp only [closest_round_division, runDiv, runRows]
  rw [hM]
  have hlen : row.length = fractions.length := stepRow_init_length _ _ _
  have hagg : ∀ x : List ℤ, aggSqDev fractions [n] [x]
      = ∑ j ∈ Finset.range fractions.length,
          ((x.getD j 0 : ℚ) - fractions.getD j 0 * (n : ℚ)) ^ 2 := by
    intro x
    rw [aggSqDev]
    apply Finset.sum_congr rfl
    intro j _
    rw [colTotal]
    simp
  rcases Nat.eq_zero_or_pos i with hi | hi
  · subst hi
    have hnudge : nudge [row] 0 a b
        = [(row.set a (row.getD a 0 - 1)).set b (row.getD b 0 + 1)] := by
      rw [nudge]
      simp
    rw [hnudge]
    set row' := (row.set a (row.getD a 0 - 1)).set b (row.getD b 0 + 1)
      with hrow'
    have hsetlen : (row.set a (row.getD a 0 - 1)).length = row.length :=
      List.length_set _ _ _
    have h'a : row'.getD a 0 = row.getD a 0 - 1 := by
      rw [hrow', getD_set_ne _ _ _ _ (Ne.symm hab),
        List.getD_eq_getElem?_getD,
        List.getElem?_set_self (by rw [hlen]; exact ha)]
      rfl
    have h'b : row'.getD b 0 = row.getD b 0 + 1 := by
      rw [hrow', List.getD_eq_getElem?_getD,
        List.getElem?_set_self (by rw [hsetlen, hlen]; exact hb)]
      rfl
    have h'j : ∀ j, j ≠ a → j ≠ b → row'.getD j 0 = row.getD j 0 := by
      intro j hja hjb
      rw [hrow', getD_set_ne _ _ _ _ (Ne.symm hjb),
        getD_set_ne _ _ _ _ (Ne.symm hja)]
    have hsubset : ({a, b} : Finset ℕ) ⊆ Finset.range fractions.length := by
      intro x hx
      rcases Finset.mem_insert.mp hx with h | h
      · subst h
        exact Finset.mem_range.mpr ha
      · rw [Finset.mem_singleton] at h
        subst h
        exact Finset.mem_range.mpr hb
    have hzero : ∀ x ∈ Finset.range fractions.length, x ∉ ({a, b} : Finset ℕ) →
        ((row'.getD x 0 : ℚ) - fractions.getD x 0 * (n : ℚ)) ^ 2
          - ((row.getD x 0 : ℚ) - fractions.getD x 0 * (n : ℚ)) ^ 2 = 0 := by
      intro x _ hx
      have hxa : x ≠ a := by
        intro h
        exact hx (by rw [h]; exact Finset.mem_insert_self a {b})
      have hxb : x ≠ b := by
        intro h
        apply hx
        rw [h]
        exact Finset.mem_insert_of_mem (Finset.mem_singleton_self b)
      rw [h'j x hxa hxb, sub_self]
    have key : aggSqDev fractions [n] [row'] - aggSqDev fractions [n] [row]
        = (((row'.getD a 0 : ℚ) - fractions.getD a 0 * (n : ℚ)) ^ 2
            - ((row.getD a 0 : ℚ) - fractions.getD a 0 * (n : ℚ)) ^ 2)
          + (((row'.getD b 0 : ℚ) - fractions.getD b 0 * (n : ℚ)) ^ 2
            - ((row.getD b 0 : ℚ) - fractions.getD b 0 * (n : ℚ)) ^ 2) := by
      rw [hagg row', hagg row, ← Finset.sum_sub_distrib,
        ← Finset.sum_subset hsubset hzero, Finset.sum_pair hab]
    have hD := singleRow_D_diff fractions (round_to_int_if_close fractions.sum)
      n a b ha hb hsign
    have hsub : aggSqDev fractions [n] [row'] - aggSqDev fractions [n] [row]
        = 2 * (((row.getD b 0 : ℚ) - fractions.getD b 0 * (n : ℚ))
            - ((row.getD a 0 : ℚ) - fractions.getD a 0 * (n : ℚ))) + 2 := by
      rw [key, h'a, h'b]
      push_cast
      ring
    linarith
  · have hnudge : nudge [row] i a b = [row] := by
      rw [nudge]
      rw [List.set_eq_of_length_le (by simpa using hi)]
    rw [hnudge]

theorem C6_amended_witness :
    (((∀ f ∈ [(1 : ℚ)/3, 1/3, 1/3], 0 ≤ f) ∨ (∀ f ∈ [(1 : ℚ)/3, 1/3, 1/3], f ≤ 0))
      ∧ 0 < ([(1 : ℚ)/3, 1/3, 1/3] : List ℚ).length
      ∧ 1 < ([(1 : ℚ)/3, 1/3, 1/3] : List ℚ).length
      ∧ (0 : ℕ) ≠ 1)
    ∧ aggSqDev [(1 : ℚ)/3, 1/3, 1/3] [3]
          (closest_round_division [3] [(1 : ℚ)/3, 1/3, 1/3])
        ≤ aggSqDev [(1 : ℚ)/3, 1/3, 1/3] [3]
            (nudge (closest_round_division [3] [(1 : ℚ)/3, 1/3, 1/3]) 0 0 1) :=
  ⟨⟨Or.inl (by
      intro f hf
      simp only [List.mem_cons, List.not_mem_nil, or_false] at hf
      rcases hf with h | h | h <;> subst h <;> norm_num),
    by norm_num, by norm_num, by norm_num⟩,
    C6_amended 3 [(1 : ℚ)/3, 1/3, 1/3] 0 0 1
      (Or.inl (by
        intro f hf
        simp only [List.mem_cons, List.not_mem_nil, or_false] at hf
        rcases hf with h | h | h <;> subst h <;> norm_num))
      (by norm_num) (by norm_num) (by norm_num)⟩
